import Mathlib

/-!
Verification of the search-structure core of `src/lab2.cpp`: the red-black
tree (`RedBlackTree`) and the chained hash table (`HashTable`).

The C++ pointer structures are shallowly embedded as algebraic trees and
lists:

* `RBTree` is the pointer tree rooted at `RedBlackTree::root`; the
  `parent` pointers of `RBTNode` are represented by zipper contexts
  (`Frame` lists) wherever the C++ code walks upward (`insert`,
  `insertFixup`).  A `Frame` records everything a node's parent knows
  about it: on which side it hangs, and the parent's color, data and
  other child.
* `HashTable` keeps the `std::vector<std::list<DataObject>>` as a list of
  lists, together with the `table_size` and `collision_count` fields.
  `std::hash<std::string>` is implementation-defined, so the hash function
  is a parameter `hash : String → Nat` of every hash-table operation;
  theorems quantify over it.
* `size_t` values are modelled as `Nat`; the `double` scaling by 1.5 in
  `findNextPrime` is exact integer arithmetic `n + n / 2` (for any `n`
  with `n * 1.5` representable, `static_cast<size_t>(n * 1.5)` is
  `⌊3n/2⌋`).
-/

namespace Lab2

/-- Kernel-computable decision procedure for the lexicographic `String`
order (the embedding of `std::string::operator<`), routed through the
character lists so that concrete trees and searches evaluate by `decide`
and `rfl`. -/
instance (priority := high) decLtStr (a b : String) : Decidable (a < b) :=
  decidable_of_iff (List.Lex (· < ·) a.toList b.toList) String.lt_iff_toList_lt.symm

/-- `enum Color` of lab2.cpp. -/
inductive Color where
  | RED
  | BLACK
deriving DecidableEq

/-- `struct DataObject`: string key plus two numeric payload fields.
`double value2` is modelled as a rational; the program never computes with
it, it is only stored and copied. -/
structure DataObject where
  key : String
  value1 : Int
  value2 : Rat
deriving DecidableEq

/-- The tree reachable from a `RBTNode*`: empty (`nullptr`) or a node with
a color, left child, data and right child.  Parent pointers are not stored;
they are recovered from zipper contexts where the C++ walks upward. -/
inductive RBTree where
  | nil
  | node (c : Color) (l : RBTree) (d : DataObject) (r : RBTree)
deriving DecidableEq

/-- Which child of its parent a node is (`isLeftChild` / `isRightChild`). -/
inductive Dir where
  | left
  | right
deriving DecidableEq

/-- One step of a path from a node up to the root: the parent's color and
data, the sibling subtree, and on which side of the parent the path
continues (`dir = .left` means the path goes through the parent's left
child, and `sib` is the parent's right child). -/
structure Frame where
  dir : Dir
  c : Color
  d : DataObject
  sib : RBTree
deriving DecidableEq

/-- Rebuild the parent node from a frame and the subtree in the hole. -/
def plug1 (f : Frame) (t : RBTree) : RBTree :=
  match f.dir with
  | .left => .node f.c t f.d f.sib
  | .right => .node f.c f.sib f.d t

/-- Rebuild the whole tree from a context (innermost frame first) and the
subtree in the hole. -/
def plug : List Frame → RBTree → RBTree
  | [], t => t
  | f :: rest, t => plug rest (plug1 f t)

/-- `RedBlackTree::leftRotate(x)`, acting on the subtree rooted at `x`.
The guard `if (!y) return;` makes rotation a no-op when the right child is
absent.  Colors are not touched; the parent/root relinking of the C++ code
is the re-rooting of the returned subtree. -/
def leftRotate : RBTree → RBTree
  | .node xc xl xd (.node yc yl yd yr) => .node yc (.node xc xl xd yl) yd yr
  | t => t

/-- `RedBlackTree::rightRotate(y)`, with the guard `if (!x) return;`. -/
def rightRotate : RBTree → RBTree
  | .node yc (.node xc xl xd xr) yd yr => .node xc xl xd (.node yc xr yd yr)
  | t => t

/-- `root->color = BLACK` (also used for `parent->color = BLACK`): paint
the root of a subtree black; no-op on the empty tree (`if(root)` guard). -/
def paintBlack : RBTree → RBTree
  | .nil => .nil
  | .node _ l d r => .node .BLACK l d r

/-- The node `z` during `insertFixup`.  In the C++ code `z` is never null:
it starts as the freshly inserted node and is only ever reassigned to a
grandparent node, so it is embedded as a guaranteed node. -/
structure ZNode where
  c : Color
  l : RBTree
  d : DataObject
  r : RBTree
deriving DecidableEq

def ZNode.toTree (z : ZNode) : RBTree := .node z.c z.l z.d z.r

/-- The descent loop of `RedBlackTree::insert`: walk from `t` to the null
position where `obj` is attached (`obj.key < x.key` goes left, otherwise
right), accumulating the path as a context (innermost frame first, on top
of the already-accumulated `ctx`). -/
def descend : RBTree → DataObject → List Frame → List Frame
  | .nil, _, ctx => ctx
  | .node c l d r, obj, ctx =>
    if obj.key < d.key then descend l obj (⟨.left, c, d, r⟩ :: ctx)
    else descend r obj (⟨.right, c, d, l⟩ :: ctx)

/-- `RedBlackTree::insertFixup(z)`.  The context is the path from `z` to
the root; the result is the whole tree after the fixup loop and the final
`root->color = BLACK`.

Case correspondence with the C++ code:
* `[]`: `z->parent == nullptr`, the while loop does not run.
* head frame BLACK: the loop condition `z->parent->color == RED` fails.
* one RED frame only: `if (!grandparent) break;`.
* RED parent, grandparent present: the three CLRS cases.  In the
  red-uncle case the loop continues from the grandparent (`z = grandparent`,
  recursive call on the rest of the context).  In the black-uncle cases the
  loop exits on the next test, because after `rightRotate(grandparent)`
  (resp. `leftRotate`) the parent of `z` is the node just painted BLACK;
  the result is assembled directly. -/
def insertFixup : ZNode → List Frame → RBTree
  | z, [] => paintBlack z.toTree
  | z, [pf] =>
    -- parent exists; if RED, the grandparent is missing and the loop breaks
    paintBlack (plug [pf] z.toTree)
  | z, pf :: gf :: rest2 =>
    match pf.c with
    | .BLACK => paintBlack (plug (pf :: gf :: rest2) z.toTree)
    | .RED =>
      match gf.dir with
      | .left =>
        -- parent is the grandparent's left child, uncle is its right child
        match gf.sib with
        | .node .RED ul ud ur =>
          -- case 1: red uncle: recolor and continue from the grandparent
          insertFixup
            ⟨.RED, plug1 ⟨pf.dir, .BLACK, pf.d, pf.sib⟩ z.toTree, gf.d,
              .node .BLACK ul ud ur⟩ rest2
        | u =>
          -- cases 2/3: black or absent uncle
          let P := plug1 pf z.toTree
          let P1 := match pf.dir with
            | .right => leftRotate P   -- case 2: triangle, z = parent; leftRotate(z)
            | .left => P
          paintBlack (plug rest2 (rightRotate (.node .RED (paintBlack P1) gf.d u)))
      | .right =>
        -- mirror image: uncle is the grandparent's left child
        match gf.sib with
        | .node .RED ul ud ur =>
          insertFixup
            ⟨.RED, .node .BLACK ul ud ur, gf.d,
              plug1 ⟨pf.dir, .BLACK, pf.d, pf.sib⟩ z.toTree⟩ rest2
        | u =>
          let P := plug1 pf z.toTree
          let P1 := match pf.dir with
            | .left => rightRotate P
            | .right => P
          paintBlack (plug rest2 (leftRotate (.node .RED u gf.d (paintBlack P1))))

/-- `RedBlackTree::insert(obj)`: BST descent attaching a new RED node,
then `insertFixup`. -/
def RBTree.insert (t : RBTree) (obj : DataObject) : RBTree :=
  insertFixup ⟨.RED, .nil, obj, .nil⟩ (descend t obj [])

/-- `RedBlackTree::searchRecursive`: on a key match the node is recorded
and the scan continues into the right subtree only. -/
def searchRecursive : RBTree → String → List DataObject → List DataObject
  | .nil, _, results => results
  | .node _ l d r, searchKey, results =>
    if searchKey = d.key then searchRecursive r searchKey (results ++ [d])
    else if searchKey < d.key then searchRecursive l searchKey results
    else searchRecursive r searchKey results

/-- `RedBlackTree::search(searchKey)`. -/
def RBTree.search (t : RBTree) (searchKey : String) : List DataObject :=
  searchRecursive t searchKey []

/-- `RedBlackTree::build(data)`: the old tree is destroyed (`root = nullptr`)
and every record is inserted in order, so the old tree is ignored. -/
def RBTree.build (_old : RBTree) (data : List DataObject) : RBTree :=
  data.foldl RBTree.insert .nil

/-! ### Specification-side predicates on red-black trees -/

/-- Color of the node a pointer points at; an absent node (`nullptr`)
counts as BLACK, as usual for red-black trees. -/
def rootColor : RBTree → Color
  | .nil => .BLACK
  | .node c _ _ _ => c

/-- In-order traversal of the stored records. -/
def inorder : RBTree → List DataObject
  | .nil => []
  | .node _ l d r => inorder l ++ d :: inorder r

/-- Red-black property 3: no RED node has a RED child (equivalently, no
RED node has a RED parent). -/
def NoRedRed : RBTree → Prop
  | .nil => True
  | .node c l _ r =>
    (c = .RED → rootColor l = .BLACK ∧ rootColor r = .BLACK) ∧ NoRedRed l ∧ NoRedRed r

/-- Contribution of a node color to a path's black count. -/
def colorBit : Color → Nat
  | .BLACK => 1
  | .RED => 0

/-- Number of BLACK nodes on the leftmost path; for trees satisfying
`BlackHeightUniform` this is the black count of every root-to-empty path. -/
def blackHeight : RBTree → Nat
  | .nil => 0
  | .node c l _ _ => blackHeight l + colorBit c

/-- Red-black property 4, structurally: both subtrees have equal black
height, recursively. -/
def BlackHeightUniform : RBTree → Prop
  | .nil => True
  | .node _ l _ r => blackHeight l = blackHeight r ∧ BlackHeightUniform l ∧ BlackHeightUniform r

/-- The multiset (as a list) of black counts of all paths from the root
down to an empty position. -/
def pathBlackCounts : RBTree → List Nat
  | .nil => [0]
  | .node c l _ r => (pathBlackCounts l ++ pathBlackCounts r).map (· + colorBit c)

/-- The ordering invariant exactly as the spec states it: all keys in the
left subtree are strictly below the node's key, all keys in the right
subtree are greater than or equal to it, at every node. -/
def StrictOrdered : RBTree → Prop
  | .nil => True
  | .node _ l d r =>
    (∀ x ∈ inorder l, x.key < d.key) ∧ (∀ x ∈ inorder r, d.key ≤ x.key) ∧
      StrictOrdered l ∧ StrictOrdered r

instance instDecStrictOrdered : (t : RBTree) → Decidable (StrictOrdered t)
  | .nil => .isTrue trivial
  | .node _ l _ r => by
    have hl := instDecStrictOrdered l
    have hr := instDecStrictOrdered r
    unfold StrictOrdered
    infer_instance

/-- The weak (two-sided non-strict) ordering invariant: all keys in the
left subtree are at most the node's key, all keys in the right subtree are
at least it. -/
def WeakOrdered : RBTree → Prop
  | .nil => True
  | .node _ l d r =>
    (∀ x ∈ inorder l, x.key ≤ d.key) ∧ (∀ x ∈ inorder r, d.key ≤ x.key) ∧
      WeakOrdered l ∧ WeakOrdered r

/-- Optional inclusive lower bound on a key. -/
def lbOk : Option String → String → Prop
  | none, _ => True
  | some a, k => a ≤ k

/-- Optional inclusive upper bound on a key. -/
def ubOk : Option String → String → Prop
  | none, _ => True
  | some b, k => k ≤ b

/-- All keys of `t` lie in the (inclusive, optional) interval, and `t` is
weakly ordered; the bounds thread through the recursion. -/
def OrdBnd (lo hi : Option String) : RBTree → Prop
  | .nil => True
  | .node _ l d r =>
    lbOk lo d.key ∧ ubOk hi d.key ∧ OrdBnd lo (some d.key) l ∧ OrdBnd (some d.key) hi r

/-- A context is order-consistent: plugging a tree whose keys lie in the
hole's interval produces an ordered tree.  `CtxBnd ctx lo hi` records the
hole's interval. -/
inductive CtxBnd : List Frame → Option String → Option String → Prop
  | nil : CtxBnd [] none none
  | left {rest : List Frame} {lo hi : Option String} (c : Color) (d : DataObject) (sib : RBTree) :
      CtxBnd rest lo hi → lbOk lo d.key → ubOk hi d.key → OrdBnd (some d.key) hi sib →
      CtxBnd (⟨.left, c, d, sib⟩ :: rest) lo (some d.key)
  | right {rest : List Frame} {lo hi : Option String} (c : Color) (d : DataObject) (sib : RBTree) :
      CtxBnd rest lo hi → lbOk lo d.key → ubOk hi d.key → OrdBnd lo (some d.key) sib →
      CtxBnd (⟨.right, c, d, sib⟩ :: rest) (some d.key) hi

/-- Color of the parent of the hole (BLACK when the hole is the root). -/
def headColor : List Frame → Color
  | [] => .BLACK
  | f :: _ => f.c

/-- A context is red-black consistent around a hole of black height `n`:
every sibling is a valid red-black subtree of matching black height, and
there is no RED-RED violation along the path or towards a sibling. -/
inductive CtxRB : List Frame → Nat → Prop
  | nil (n : Nat) : CtxRB [] n
  | cons {rest : List Frame} {n : Nat} (f : Frame) :
      CtxRB rest (n + colorBit f.c) →
      NoRedRed f.sib → BlackHeightUniform f.sib → blackHeight f.sib = n →
      (f.c = .RED → rootColor f.sib = .BLACK) →
      (f.c = .RED → headColor rest = .BLACK) →
      CtxRB (f :: rest) n

/-! ### Hash table -/

/-- The trial-division loop of `HashTable::isPrime`, testing divisors
`i, i + 2, i + 6, i + 8, ...` while `i * i <= n`.  The first argument is
structural fuel: one unit per iteration.  Any fuel of at least
`n + 1 - i` units never runs out (`i` grows by 6 per step and the loop
stops once `i * i > n`), which is proved below, so with the fuel used by
`isPrime` this is exactly the C++ loop. -/
def isPrimeLoop : Nat → Nat → Nat → Bool
  | 0, _, _ => true
  | fuel + 1, n, i =>
    if i * i ≤ n then
      if n % i = 0 || n % (i + 2) = 0 then false else isPrimeLoop fuel n (i + 6)
    else true

/-- `HashTable::isPrime(n)`. -/
def isPrime (n : Nat) : Bool :=
  if n ≤ 1 then false
  else if n ≤ 3 then true
  else if n % 2 = 0 || n % 3 = 0 then false
  else isPrimeLoop n n 5

/-- The odd-step search loop of `HashTable::findNextPrime`
(`while (!isPrime(n)) n += 2;`).  The first argument is structural fuel;
Bertrand's postulate gives a prime among the first `m / 2 + 1` odd steps
from an odd `m`, so the fuel passed by `findNextPrime` never runs out
(proved below). -/
def findNextPrimeLoop : Nat → Nat → Nat
  | 0, m => m
  | fuel + 1, m => if isPrime m then m else findNextPrimeLoop fuel (m + 2)

/-- `HashTable::findNextPrime(n)`: return 2 for `n ≤ 2`; otherwise scale
by 1.5 (`⌊3n/2⌋ = n + n / 2`), round up to an odd number, then advance by
2 until prime. -/
def findNextPrime (n : Nat) : Nat :=
  if n ≤ 2 then 2
  else
    let n1 := n + n / 2
    let n2 := if n1 % 2 = 0 then n1 + 1 else n1
    findNextPrimeLoop (n2 + 2) n2

/-- `class HashTable`: the bucket vector, its size and the collision
counter. -/
structure HashTable where
  table : List (List DataObject)
  table_size : Nat
  collision_count : Nat
deriving DecidableEq

/-- `HashTable::hashFunction(key)`: `hash(key) % table_size`, guarded
against a zero table size.  `hash` abstracts the implementation-defined
`std::hash<std::string>`. -/
def hashFunction (hash : String → Nat) (table_size : Nat) (key : String) : Nat :=
  if table_size > 0 then hash key % table_size else 0

/-- The `HashTable(expected_elements)` constructor: prime capacity from
`max(1, expected_elements)`, that many empty chains, zero collisions. -/
def mkHashTable (expected_elements : Nat) : HashTable :=
  let ts := findNextPrime (max 1 expected_elements)
  ⟨List.replicate ts [], ts, 0⟩

/-- `HashTable::insert(obj)`.  A zero-size table is first rebuilt as
`HashTable(1)`; an out-of-range index aborts the insert (defensive check);
otherwise the collision counter is incremented exactly when the target
chain is non-empty and holds no record with the inserted key, and the
record is appended to the chain. -/
def HashTable.insert (hash : String → Nat) (T0 : HashTable) (obj : DataObject) : HashTable :=
  let T := if T0.table_size = 0 then mkHashTable 1 else T0
  let index := hashFunction hash T.table_size obj.key
  if T.table_size ≤ index then T
  else
    let chain := T.table.getD index []
    let key_already_present := chain.any (fun r => r.key == obj.key)
    let cc := if chain.isEmpty then T.collision_count
      else if key_already_present then T.collision_count
      else T.collision_count + 1
    { table := T.table.set index (chain ++ [obj]), table_size := T.table_size,
      collision_count := cc }

/-- `HashTable::search(searchKey)`: empty on a zero-size table or an
out-of-range index, otherwise all records of the target chain with the
searched key, in chain order. -/
def HashTable.search (hash : String → Nat) (T : HashTable) (searchKey : String) :
    List DataObject :=
  if T.table_size = 0 then []
  else
    let index := hashFunction hash T.table_size searchKey
    if T.table_size ≤ index then []
    else (T.table.getD index []).filter (fun r => r.key == searchKey)

/-- `HashTable::getCollisionCount()`. -/
def HashTable.getCollisionCount (T : HashTable) : Nat := T.collision_count

/-- `HashTable::build(data)`: the table is replaced by
`HashTable(data.size())` (fresh capacity, zero collisions), then every
record is inserted in order; the old table is ignored. -/
def HashTable.build (hash : String → Nat) (_old : HashTable) (data : List DataObject) :
    HashTable :=
  data.foldl (HashTable.insert hash) (mkHashTable data.length)

/-- Well-formedness of the vector: its length is `table_size` (always true
for tables produced by the constructor, maintained by every operation). -/
def HashTable.WF (T : HashTable) : Prop := T.table.length = T.table_size

/-- The collision count the spec describes, replayed over an insertion
sequence: one per inserted record whose target chain, in the table state
at that moment, is non-empty and holds no record with the inserted key.
The table state advances by the code's own `insert`. -/
def specCollisionCount (hash : String → Nat) : HashTable → List DataObject → Nat
  | _, [] => 0
  | T, obj :: rest =>
    let chain := T.table.getD (hashFunction hash T.table_size obj.key) []
    (if chain ≠ [] ∧ (∀ r ∈ chain, r.key ≠ obj.key) then 1 else 0) +
      specCollisionCount hash (HashTable.insert hash T obj) rest

/-- Modelled from the words of claim C4: one collision per inserted record
whose target chain already contains at least one record with a key
different from the inserted record's key.  (Differs from
`specCollisionCount` when the chain holds both the same key and a
different key.) -/
def claimedCollisionCount (hash : String → Nat) : HashTable → List DataObject → Nat
  | _, [] => 0
  | T, obj :: rest =>
    let chain := T.table.getD (hashFunction hash T.table_size obj.key) []
    (if ∃ r ∈ chain, r.key ≠ obj.key then 1 else 0) +
      claimedCollisionCount hash (HashTable.insert hash T obj) rest

/-! ### Primality of the capacity selection -/

/-- If the trial-division loop of `isPrime` starts with enough fuel and
answers `true`, then `n` has no divisor `d ≥ i` with `d² ≤ n` and
`d ≡ 1, 5 (mod 6)`. -/
theorem isPrimeLoop_sound :
    ∀ (fuel n i : Nat), n + 1 ≤ i + fuel → i % 6 = 5 → isPrimeLoop fuel n i = true →
      ∀ d, d ∣ n → i ≤ d → d * d ≤ n → d % 6 = 1 ∨ d % 6 = 5 → False := by
  intro fuel
  induction fuel with
  | zero =>
    intro n i hfuel _ _ d _ hid hdd _
    have h1 : d ≤ d * d := Nat.le_mul_of_pos_left d (by omega)
    omega
  | succ fuel ih =>
    intro n i hfuel hi hloop d hdvd hid hdd hmod
    rw [isPrimeLoop] at hloop
    by_cases hguard : i * i ≤ n
    · rw [if_pos hguard] at hloop
      by_cases hdiv : n % i = 0 || n % (i + 2) = 0
      · rw [if_pos hdiv] at hloop
        exact Bool.false_ne_true hloop
      · rw [if_neg hdiv] at hloop
        simp only [Bool.or_eq_true, decide_eq_true_eq, not_or] at hdiv
        by_cases hnear : d < i + 6
        · have hd : d = i ∨ d = i + 2 := by omega
          rcases hd with rfl | rfl
          · exact hdiv.1 ((Nat.mod_eq_zero_of_dvd hdvd))
          · exact hdiv.2 ((Nat.mod_eq_zero_of_dvd hdvd))
        · exact ih n (i + 6) (by omega) (by omega) hloop d hdvd (by omega) hdd hmod
    · rw [if_neg hguard] at hloop
      have : i * i ≤ d * d := Nat.mul_le_mul hid hid
      omega

/-- Soundness of `HashTable::isPrime`. -/
theorem isPrime_sound (n : Nat) (h : isPrime n = true) : Nat.Prime n := by
  rw [isPrime] at h
  by_cases h1 : n ≤ 1
  · rw [if_pos h1] at h; exact absurd h (by simp)
  rw [if_neg h1] at h
  by_cases h3 : n ≤ 3
  · have : n = 2 ∨ n = 3 := by omega
    rcases this with rfl | rfl
    · exact Nat.prime_two
    · exact Nat.prime_three
  rw [if_neg h3] at h
  by_cases h23 : n % 2 = 0 || n % 3 = 0
  · rw [if_pos h23] at h; exact absurd h (by simp)
  rw [if_neg h23] at h
  simp only [Bool.or_eq_true, decide_eq_true_eq, not_or] at h23
  by_contra hn
  set p := n.minFac with hp_def
  have hp : p.Prime := Nat.minFac_prime (by omega)
  have hdvd : p ∣ n := Nat.minFac_dvd n
  have hsq : p ^ 2 ≤ n := Nat.minFac_sq_le_self (by omega) hn
  have hp2 : p ≠ 2 := by
    intro he
    exact h23.1 ((Nat.mod_eq_zero_of_dvd (he ▸ hdvd)))
  have hp3 : p ≠ 3 := by
    intro he
    exact h23.2 ((Nat.mod_eq_zero_of_dvd (he ▸ hdvd)))
  have hpm2 : p % 2 ≠ 0 := by
    intro he
    have : (2 : Nat) ∣ p := Nat.dvd_of_mod_eq_zero he
    rcases (Nat.Prime.eq_one_or_self_of_dvd hp 2 this) with h' | h'
    · omega
    · exact hp2 h'.symm
  have hpm3 : p % 3 ≠ 0 := by
    intro he
    have : (3 : Nat) ∣ p := Nat.dvd_of_mod_eq_zero he
    rcases (Nat.Prime.eq_one_or_self_of_dvd hp 3 this) with h' | h'
    · omega
    · exact hp3 h'.symm
  have hp5 : 5 ≤ p := by
    have := hp.two_le
    have hp4 : p ≠ 4 := by
      intro he
      rw [he] at hp
      exact absurd hp (by decide)
    omega
  exact isPrimeLoop_sound n n 5 (by omega) (by omega) h p hdvd hp5
    (by rw [pow_two] at hsq; exact hsq) (by omega)

/-- The trial-division loop accepts every prime, whatever the fuel. -/
theorem isPrimeLoop_complete (n : Nat) (h : Nat.Prime n) :
    ∀ fuel i, 2 ≤ i → isPrimeLoop fuel n i = true := by
  intro fuel
  induction fuel with
  | zero => intro i _; rfl
  | succ fuel ih =>
    intro i hi
    rw [isPrimeLoop]
    by_cases hguard : i * i ≤ n
    · rw [if_pos hguard]
      have hni : n % i ≠ 0 := by
        intro he
        have hd : i ∣ n := Nat.dvd_of_mod_eq_zero he
        rcases Nat.Prime.eq_one_or_self_of_dvd h i hd with h' | h'
        · omega
        · subst h'
          have : 2 * i ≤ i * i := Nat.mul_le_mul_right i hi
          omega
      have hni2 : n % (i + 2) ≠ 0 := by
        intro he
        have hd : (i + 2) ∣ n := Nat.dvd_of_mod_eq_zero he
        rcases Nat.Prime.eq_one_or_self_of_dvd h (i + 2) hd with h' | h'
        · omega
        · have h2i : 2 * i ≤ i * i := Nat.mul_le_mul_right i hi
          have hieq : i = 2 := by omega
          rw [hieq] at h'
          rw [← h'] at h
          exact absurd h (by decide)
      have : (n % i = 0 || n % (i + 2) = 0) = false := by
        simp [hni, hni2]
      rw [this, if_neg (by simp)]
      exact ih (i + 6) (by omega)
    · rw [if_neg hguard]

/-- Completeness of `HashTable::isPrime`. -/
theorem isPrime_complete (n : Nat) (h : Nat.Prime n) : isPrime n = true := by
  rw [isPrime]
  have h2 := h.two_le
  rw [if_neg (by omega)]
  by_cases h3 : n ≤ 3
  · rw [if_pos h3]
  rw [if_neg h3]
  have hm2 : n % 2 ≠ 0 := by
    intro he
    have hd : (2 : Nat) ∣ n := Nat.dvd_of_mod_eq_zero he
    rcases Nat.Prime.eq_one_or_self_of_dvd h 2 hd with h' | h'
    · omega
    · omega
  have hm3 : n % 3 ≠ 0 := by
    intro he
    have hd : (3 : Nat) ∣ n := Nat.dvd_of_mod_eq_zero he
    rcases Nat.Prime.eq_one_or_self_of_dvd h 3 hd with h' | h'
    · omega
    · omega
  rw [if_neg (by simp [hm2, hm3])]
  exact isPrimeLoop_complete n h n 5 (by omega)

/-- The odd-step search loop returns a number accepted by `isPrime`, at
least its starting point, provided some step below the fuel bound is
accepted. -/
theorem findNextPrimeLoop_spec :
    ∀ (fuel m : Nat), (∃ k, k < fuel ∧ isPrime (m + 2 * k) = true) →
      isPrime (findNextPrimeLoop fuel m) = true ∧ m ≤ findNextPrimeLoop fuel m := by
  intro fuel
  induction fuel with
  | zero =>
    intro m ⟨k, hk, _⟩
    omega
  | succ fuel ih =>
    intro m ⟨k, hk, hkp⟩
    rw [findNextPrimeLoop]
    by_cases hm : isPrime m = true
    · rw [if_pos hm]; exact ⟨hm, le_refl m⟩
    · rw [if_neg hm]
      have hk0 : k ≠ 0 := by
        intro he
        rw [he] at hkp
        simp only [Nat.mul_zero, Nat.add_zero] at hkp
        exact hm hkp
      have := ih (m + 2) ⟨k - 1, by omega, by rw [show m + 2 + 2 * (k - 1) = m + 2 * k by omega]; exact hkp⟩
      exact ⟨this.1, by omega⟩

/-- Bertrand's postulate supplies an accepted step for the search loop
from any odd starting point `m ≥ 5`, within fuel `m + 2`. -/
theorem exists_accepted_step (m : Nat) (hm : m % 2 = 1) (h5 : 5 ≤ m) :
    ∃ k, k < m + 2 ∧ isPrime (m + 2 * k) = true := by
  obtain ⟨p, hp, hmp, hp2m⟩ := Nat.exists_prime_lt_and_le_two_mul m (by omega)
  have hodd : p % 2 = 1 := by
    have h2 := hp.two_le
    by_contra he
    have hd : (2 : Nat) ∣ p := Nat.dvd_of_mod_eq_zero (by omega)
    rcases Nat.Prime.eq_one_or_self_of_dvd hp 2 hd with h' | h'
    · omega
    · omega
  refine ⟨(p - m) / 2, by omega, ?_⟩
  have : m + 2 * ((p - m) / 2) = p := by omega
  rw [this]
  exact isPrime_complete p hp

/-- Unfolding of the branch of `findNextPrime` that scales and searches. -/
theorem findNextPrime_eq_loop (n : Nat) (h : ¬ n ≤ 2) :
    findNextPrime n =
      findNextPrimeLoop
        ((if (n + n / 2) % 2 = 0 then n + n / 2 + 1 else n + n / 2) + 2)
        (if (n + n / 2) % 2 = 0 then n + n / 2 + 1 else n + n / 2) := by
  rw [findNextPrime, if_neg h]

/-- In the scaling branch the result passes `isPrime` and is at least the
1.5× scaling floor `⌊3n/2⌋ = n + n / 2`. -/
theorem findNextPrime_loop_facts (n : Nat) (h : ¬ n ≤ 2) :
    isPrime (findNextPrime n) = true ∧ n + n / 2 ≤ findNextPrime n := by
  rw [findNextPrime_eq_loop n h]
  set m := if (n + n / 2) % 2 = 0 then n + n / 2 + 1 else n + n / 2 with hm
  have hodd : m % 2 = 1 := by
    rw [hm]; split <;> omega
  have h5 : 5 ≤ m := by
    have : 4 ≤ n + n / 2 := by omega
    rw [hm]; split <;> omega
  have hex := exists_accepted_step m hodd h5
  have hspec := findNextPrimeLoop_spec (m + 2) m (by
    obtain ⟨k, hk, hkp⟩ := hex
    exact ⟨k, by omega, hkp⟩)
  have hmn : n + n / 2 ≤ m := by rw [hm]; split <;> omega
  exact ⟨hspec.1, by omega⟩

/-- Every capacity returned by `findNextPrime` is a prime number. -/
theorem findNextPrime_prime (n : Nat) : Nat.Prime (findNextPrime n) := by
  by_cases h2 : n ≤ 2
  · rw [findNextPrime, if_pos h2]; exact Nat.prime_two
  · exact isPrime_sound _ (findNextPrime_loop_facts n h2).1

/-- For `n ≥ 3` the returned capacity is at least the 1.5× scaling floor
`⌊3n/2⌋ = n + n / 2`. -/
theorem findNextPrime_lower (n : Nat) (h : 3 ≤ n) : n + n / 2 ≤ findNextPrime n :=
  (findNextPrime_loop_facts n (by omega)).2

/-- The capacity is always at least 2. -/
theorem findNextPrime_ge_two (n : Nat) : 2 ≤ findNextPrime n :=
  (findNextPrime_prime n).two_le

/-! ### Hash table: basic facts about the constructor and insert -/

theorem mkHashTable_table_size (n : Nat) :
    (mkHashTable n).table_size = findNextPrime (max 1 n) := rfl

theorem mkHashTable_ge_two (n : Nat) : 2 ≤ (mkHashTable n).table_size :=
  findNextPrime_ge_two _

theorem mkHashTable_WF (n : Nat) : (mkHashTable n).WF := by
  show (List.replicate (findNextPrime (max 1 n)) ([] : List DataObject)).length = _
  rw [List.length_replicate]
  rfl

theorem mkHashTable_collision_count (n : Nat) : (mkHashTable n).collision_count = 0 := rfl

/-- On a positive table size, `hashFunction` is in range. -/
theorem hashFunction_lt (hash : String → Nat) (ts : Nat) (key : String) (h : 0 < ts) :
    hashFunction hash ts key < ts := by
  rw [hashFunction, if_pos h]
  exact Nat.mod_lt _ h

/-- `insert` on a table of positive size: the reconstruction branch and
the defensive out-of-range abort are not taken, the record is appended to
its chain, and the collision counter grows by one exactly when the chain
was non-empty without the inserted key. -/
theorem HashTable.insert_eq (hash : String → Nat) (T : HashTable) (obj : DataObject)
    (h0 : 0 < T.table_size) :
    HashTable.insert hash T obj =
      { table := T.table.set (hashFunction hash T.table_size obj.key)
          (T.table.getD (hashFunction hash T.table_size obj.key) [] ++ [obj]),
        table_size := T.table_size,
        collision_count := T.collision_count +
          (if T.table.getD (hashFunction hash T.table_size obj.key) [] ≠ [] ∧
              (∀ r ∈ T.table.getD (hashFunction hash T.table_size obj.key) [], r.key ≠ obj.key)
            then 1 else 0) } := by
  rw [HashTable.insert]
  simp only [Nat.pos_iff_ne_zero.1 h0, if_false, ite_false]
  rw [if_neg (by push_neg; exact hashFunction_lt hash T.table_size obj.key h0)]
  congr 1
  rcases hc : T.table.getD (hashFunction hash T.table_size obj.key) [] with _ | ⟨r0, chain'⟩
  · simp
  · simp only [List.isEmpty_cons, Bool.false_eq_true, if_false]
    by_cases hpres : (r0 :: chain').any (fun r => r.key == obj.key)
    · rw [if_pos hpres]
      simp only [List.any_eq_true, beq_iff_eq] at hpres
      obtain ⟨r, hr, hrk⟩ := hpres
      rw [if_neg (by push_neg; intro _; exact ⟨r, hr, hrk⟩)]
      omega
    · rw [if_neg hpres]
      simp only [List.any_eq_true, beq_iff_eq, not_exists, not_and] at hpres
      rw [if_pos ⟨by simp, fun r hr => hpres r hr⟩]

theorem HashTable.insert_table_size (hash : String → Nat) (T : HashTable) (obj : DataObject)
    (h0 : 0 < T.table_size) :
    (HashTable.insert hash T obj).table_size = T.table_size := by
  rw [HashTable.insert_eq hash T obj h0]

theorem HashTable.insert_collision_count (hash : String → Nat) (T : HashTable)
    (obj : DataObject) (h0 : 0 < T.table_size) :
    (HashTable.insert hash T obj).collision_count =
      T.collision_count +
        (if T.table.getD (hashFunction hash T.table_size obj.key) [] ≠ [] ∧
            (∀ r ∈ T.table.getD (hashFunction hash T.table_size obj.key) [], r.key ≠ obj.key)
          then 1 else 0) := by
  rw [HashTable.insert_eq hash T obj h0]

theorem HashTable.insert_WF (hash : String → Nat) (T : HashTable) (obj : DataObject)
    (h0 : 0 < T.table_size) (hwf : T.WF) :
    (HashTable.insert hash T obj).WF := by
  rw [HashTable.insert_eq hash T obj h0]
  show (T.table.set _ _).length = T.table_size
  rw [List.length_set]
  exact hwf

/-- Folding `insert` over a record list keeps the table size. -/
theorem foldl_insert_table_size (hash : String → Nat) (objs : List DataObject) :
    ∀ (T : HashTable), 0 < T.table_size →
      (objs.foldl (HashTable.insert hash) T).table_size = T.table_size := by
  induction objs with
  | nil => intro T _; rfl
  | cons o rest ih =>
    intro T h0
    rw [List.foldl_cons, ih (HashTable.insert hash T o)
      (by rw [HashTable.insert_table_size hash T o h0]; exact h0),
      HashTable.insert_table_size hash T o h0]

/-- Folding `insert` keeps well-formedness. -/
theorem foldl_insert_WF (hash : String → Nat) (objs : List DataObject) :
    ∀ (T : HashTable), 0 < T.table_size → T.WF →
      (objs.foldl (HashTable.insert hash) T).WF := by
  induction objs with
  | nil => intro T _ hwf; exact hwf
  | cons o rest ih =>
    intro T h0 hwf
    rw [List.foldl_cons]
    exact ih (HashTable.insert hash T o)
      (by rw [HashTable.insert_table_size hash T o h0]; exact h0)
      (HashTable.insert_WF hash T o h0 hwf)

/-- The collision counter accumulated by the code equals the specified
per-record count. -/
theorem foldl_collision_eq_spec (hash : String → Nat) (objs : List DataObject) :
    ∀ (T : HashTable), 0 < T.table_size →
      (objs.foldl (HashTable.insert hash) T).collision_count =
        T.collision_count + specCollisionCount hash T objs := by
  induction objs with
  | nil => intro T _; rfl
  | cons o rest ih =>
    intro T h0
    rw [List.foldl_cons, specCollisionCount]
    rw [ih (HashTable.insert hash T o)
      (by rw [HashTable.insert_table_size hash T o h0]; exact h0)]
    rw [HashTable.insert_collision_count hash T o h0]
    omega

/-! ### Claim theorems: hash table and rotations -/

/-- C5: on every insert into a table reachable from the constructor by
inserts (which covers `build` followed by further inserts), the collision
counter grows by exactly one if and only if the target chain is non-empty
and holds no record with the inserted key; in particular re-inserting a
present key, or inserting into an empty bucket, leaves it unchanged. -/
theorem c5_collision_increment (hash : String → Nat) (n : Nat) (objs : List DataObject)
    (obj : DataObject) :
    (HashTable.insert hash (objs.foldl (HashTable.insert hash) (mkHashTable n))
        obj).collision_count =
      (objs.foldl (HashTable.insert hash) (mkHashTable n)).collision_count +
        (if (objs.foldl (HashTable.insert hash) (mkHashTable n)).table.getD
              (hashFunction hash
                (objs.foldl (HashTable.insert hash) (mkHashTable n)).table_size obj.key) []
            ≠ [] ∧
            (∀ r ∈ (objs.foldl (HashTable.insert hash) (mkHashTable n)).table.getD
              (hashFunction hash
                (objs.foldl (HashTable.insert hash) (mkHashTable n)).table_size obj.key) [],
              r.key ≠ obj.key)
          then 1 else 0) := by
  have h0 : 0 < (objs.foldl (HashTable.insert hash) (mkHashTable n)).table_size := by
    rw [foldl_insert_table_size hash objs (mkHashTable n)
      (by have := mkHashTable_ge_two n; omega)]
    have := mkHashTable_ge_two n
    omega
  exact HashTable.insert_collision_count hash _ obj h0

/-- C4 (amended): after construction, the collision counter equals the
number of inserted records whose target chain was non-empty and contained
no record with the inserted key at the moment of insertion. -/
theorem c4_amended_collision_total (hash : String → Nat) (n : Nat) (objs : List DataObject) :
    (objs.foldl (HashTable.insert hash) (mkHashTable n)).collision_count =
      specCollisionCount hash (mkHashTable n) objs := by
  have h0 : 0 < (mkHashTable n).table_size := by
    have := mkHashTable_ge_two n; omega
  rw [foldl_collision_eq_spec hash objs (mkHashTable n) h0, mkHashTable_collision_count]
  omega

/-- C4 (counterexample): with a hash sending every key to bucket 0 (a
possible behavior of the implementation-defined `std::hash` on these
keys), inserting records with keys a, b, a after construction yields
collision counter 1, while the count described by the claim — one per
record whose bucket already held a record with a different key — is 2:
the claim miscounts the re-insertion of key a into the bucket that holds
both a and b. -/
theorem c4_cex_collision_mismatch :
    (([⟨"a", 1, 1⟩, ⟨"b", 2, 2⟩, ⟨"a", 3, 3⟩] : List DataObject).foldl
        (HashTable.insert (fun _ => 0)) (mkHashTable 0)).collision_count = 1 ∧
    claimedCollisionCount (fun _ => 0) (mkHashTable 0)
        [⟨"a", 1, 1⟩, ⟨"b", 2, 2⟩, ⟨"a", 3, 3⟩] = 2 := by
  decide

/-- C6 (counterexample): at expected size 2 the constructor special-case
returns capacity 2, which is below the 1.5× scaling floor
`⌊1.5 · max(1,2)⌋ = 3`; the claimed floor bound does not hold for every
input. -/
theorem c6_cex_capacity_two :
    (mkHashTable 2).table_size = 2 ∧
      (mkHashTable 2).table_size < max 1 2 + max 1 2 / 2 := by
  decide

/-- C6 (amended): the constructor capacity is `findNextPrime (max 1 n)`;
it is always prime; inputs with `max 1 n ≤ 2` are special-cased to
capacity 2; and for `n ≥ 3` the capacity is at least the 1.5× scaling
floor `⌊3·max(1,n)/2⌋`. -/
theorem c6_amended_capacity (n : Nat) :
    (mkHashTable n).table_size = findNextPrime (max 1 n) ∧
    Nat.Prime (mkHashTable n).table_size ∧
    (n ≤ 2 → (mkHashTable n).table_size = 2) ∧
    (3 ≤ n → max 1 n + max 1 n / 2 ≤ (mkHashTable n).table_size) := by
  refine ⟨rfl, findNextPrime_prime _, ?_, ?_⟩
  · intro h
    rw [mkHashTable_table_size, findNextPrime, if_pos (by omega)]
  · intro h
    rw [mkHashTable_table_size]
    have : max 1 n = n := by omega
    rw [this]
    exact findNextPrime_lower n h

/-- Witness for `c6_amended_capacity` at `n = 10`: the capacity is prime
and at least `15 = ⌊1.5 · 10⌋`. -/
theorem c6_amended_capacity_w :
    Nat.Prime (mkHashTable 10).table_size ∧
      max 1 10 + max 1 10 / 2 ≤ (mkHashTable 10).table_size :=
  ⟨(c6_amended_capacity 10).2.1, (c6_amended_capacity 10).2.2.2 (by decide)⟩

/-- C10: for every table reachable from the constructor by inserts, the
capacity is at least 2 (so the zero-capacity reconstruction branch is
unreachable), the hash index is strictly below the capacity (so the
defensive out-of-range abort is unreachable and insert never aborts), the
bucket vector length equals the capacity, and an insert appends the
record to exactly the indexed chain. -/
theorem c10_hash_safety (hash : String → Nat) (n : Nat) (objs : List DataObject)
    (obj : DataObject) :
    2 ≤ (objs.foldl (HashTable.insert hash) (mkHashTable n)).table_size ∧
    (objs.foldl (HashTable.insert hash) (mkHashTable n)).table.length =
      (objs.foldl (HashTable.insert hash) (mkHashTable n)).table_size ∧
    hashFunction hash (objs.foldl (HashTable.insert hash) (mkHashTable n)).table_size obj.key
      < (objs.foldl (HashTable.insert hash) (mkHashTable n)).table_size ∧
    (HashTable.insert hash (objs.foldl (HashTable.insert hash) (mkHashTable n)) obj).table =
      (objs.foldl (HashTable.insert hash) (mkHashTable n)).table.set
        (hashFunction hash
          (objs.foldl (HashTable.insert hash) (mkHashTable n)).table_size obj.key)
        ((objs.foldl (HashTable.insert hash) (mkHashTable n)).table.getD
          (hashFunction hash
            (objs.foldl (HashTable.insert hash) (mkHashTable n)).table_size obj.key) []
          ++ [obj]) := by
  have hmk : 0 < (mkHashTable n).table_size := by
    have := mkHashTable_ge_two n; omega
  have hts : (objs.foldl (HashTable.insert hash) (mkHashTable n)).table_size =
      (mkHashTable n).table_size := foldl_insert_table_size hash objs (mkHashTable n) hmk
  have h0 : 0 < (objs.foldl (HashTable.insert hash) (mkHashTable n)).table_size := by
    rw [hts]; exact hmk
  refine ⟨?_, ?_, ?_, ?_⟩
  · rw [hts]; exact mkHashTable_ge_two n
  · exact foldl_insert_WF hash objs (mkHashTable n) hmk (mkHashTable_WF n)
  · exact hashFunction_lt hash _ obj.key h0
  · rw [HashTable.insert_eq hash _ obj h0]

/-- C8: `build` is an idempotent full reconstruction: building twice from
the same dataset (indeed, building on top of any previous state) yields
identical search results for every key and, for the hash table, an
identical collision count. -/
theorem c8_build_idempotent (hash : String → Nat) (t : RBTree) (T : HashTable)
    (data : List DataObject) (key : String) :
    (RBTree.build (RBTree.build t data) data).search key
      = (RBTree.build t data).search key ∧
    HashTable.search hash (HashTable.build hash (HashTable.build hash T data) data) key
      = HashTable.search hash (HashTable.build hash T data) key ∧
    (HashTable.build hash (HashTable.build hash T data) data).getCollisionCount
      = (HashTable.build hash T data).getCollisionCount :=
  ⟨rfl, rfl, rfl⟩

/-- C9: rotating a node whose required child is absent is a total no-op:
the guarded rotation returns the subtree unchanged (structure, colors and,
through the unchanged re-rooting, the parent links and the tree root). -/
theorem c9_rotation_guard_noop (c : Color) (l r : RBTree) (d : DataObject) :
    leftRotate (.node c l d .nil) = .node c l d .nil ∧
    rightRotate (.node c .nil d r) = .node c .nil d r :=
  ⟨rfl, rfl⟩

/-! ### Claim theorems: red-black tree concrete runs -/

/-- C7 (divergence witness): building from
`[("cat",1,1.0), ("dog",2,2.0), ("cat",3,3.0)]` and searching "cat"
returns only `("cat",3,3.0)` — the record `("cat",1,1.0)` was carried into
the left subtree of the other "cat" node by the fixup rotations, where the
right-only duplicate scan never looks. -/
theorem c7_cat_search_loses_record :
    (RBTree.build .nil [⟨"cat", 1, 1⟩, ⟨"dog", 2, 2⟩, ⟨"cat", 3, 3⟩]).search "cat"
      = [⟨"cat", 3, 3⟩] := by
  decide

/-- C1 (divergence witness): inserting three records sharing one key and
searching that key returns only two of them. -/
theorem c1_duplicate_search_incomplete :
    (RBTree.build .nil [⟨"x", 1, 1⟩, ⟨"x", 2, 2⟩, ⟨"x", 3, 3⟩]).search "x"
      = [⟨"x", 2, 2⟩, ⟨"x", 3, 3⟩] := by
  decide

/-- C3 (counterexample): after inserting
`[("cat",1,1.0), ("dog",2,2.0), ("cat",3,3.0)]` the tree has root key
"cat" with the other "cat" record in its left subtree, so the strict form
of the ordering invariant (left subtree strictly below the node key)
evaluates to false on it. -/
theorem c3_cex_strict_ordering_fails :
    RBTree.build .nil [⟨"cat", 1, 1⟩, ⟨"dog", 2, 2⟩, ⟨"cat", 3, 3⟩] =
      .node .BLACK (.node .RED .nil ⟨"cat", 1, 1⟩ .nil) ⟨"cat", 3, 3⟩
        (.node .RED .nil ⟨"dog", 2, 2⟩ .nil) ∧
    decide (StrictOrdered
        (RBTree.build .nil [⟨"cat", 1, 1⟩, ⟨"dog", 2, 2⟩, ⟨"cat", 3, 3⟩])) = false := by
  exact ⟨by decide, by decide⟩

/-! ### Ordering invariant of the red-black tree -/

theorem lbOk_le (lo : Option String) (a b : String) (h : lbOk lo a) (hab : a ≤ b) :
    lbOk lo b := by
  cases lo with
  | none => trivial
  | some x => exact le_trans h hab

theorem ubOk_le (hi : Option String) (a b : String) (h : ubOk hi a) (hba : b ≤ a) :
    ubOk hi b := by
  cases hi with
  | none => trivial
  | some x => exact le_trans hba h

/-- Bounds can be relaxed. -/
theorem ordBnd_mono : ∀ (t : RBTree) (lo hi lo' hi' : Option String),
    (∀ k, lbOk lo k → lbOk lo' k) → (∀ k, ubOk hi k → ubOk hi' k) →
    OrdBnd lo hi t → OrdBnd lo' hi' t := by
  intro t
  induction t with
  | nil => intro lo hi lo' hi' _ _ _; trivial
  | node c l d r ihl ihr =>
    intro lo hi lo' hi' hl hh h
    simp only [OrdBnd] at h ⊢
    obtain ⟨h1, h2, hL, hR⟩ := h
    exact ⟨hl _ h1, hh _ h2, ihl lo (some d.key) lo' (some d.key) hl (fun k hk => hk) hL,
      ihr (some d.key) hi (some d.key) hi' (fun k hk => hk) hh hR⟩

theorem ordBnd_relax (t : RBTree) (lo hi : Option String) (h : OrdBnd lo hi t) :
    OrdBnd none none t :=
  ordBnd_mono t lo hi none none (fun _ _ => trivial) (fun _ _ => trivial) h

/-- Painting the root black never affects the ordering bounds. -/
theorem paintBlack_ordBnd (lo hi : Option String) (t : RBTree) (h : OrdBnd lo hi t) :
    OrdBnd lo hi (paintBlack t) := by
  cases t with
  | nil => exact h
  | node c l d r => exact h

/-- Left rotation preserves the ordering bounds. -/
theorem leftRotate_ordBnd (lo hi : Option String) (t : RBTree) (h : OrdBnd lo hi t) :
    OrdBnd lo hi (leftRotate t) := by
  match t with
  | .nil => exact h
  | .node xc xl xd .nil => exact h
  | .node xc xl xd (.node yc yl yd yr) =>
    simp only [OrdBnd] at h
    obtain ⟨h1, h2, hL, h3, h4, hyl, hyr⟩ := h
    show OrdBnd lo hi (.node yc (.node xc xl xd yl) yd yr)
    simp only [OrdBnd]
    exact ⟨lbOk_le lo xd.key yd.key h1 h3, h4, ⟨h1, h3, hL, hyl⟩, hyr⟩

/-- Right rotation preserves the ordering bounds. -/
theorem rightRotate_ordBnd (lo hi : Option String) (t : RBTree) (h : OrdBnd lo hi t) :
    OrdBnd lo hi (rightRotate t) := by
  match t with
  | .nil => exact h
  | .node yc .nil yd yr => exact h
  | .node yc (.node xc xl xd xr) yd yr =>
    simp only [OrdBnd] at h
    obtain ⟨h1, h2, ⟨h3, h4, hxl, hxr⟩, hR⟩ := h
    show OrdBnd lo hi (.node xc xl xd (.node yc xr yd yr))
    simp only [OrdBnd]
    exact ⟨h3, ubOk_le hi yd.key xd.key h2 h4, hxl, ⟨h4, h2, hxr, hR⟩⟩

/-- Plugging a tree with keys in the hole's interval into an
order-consistent context yields an ordered tree. -/
theorem ctxBnd_plug : ∀ (ctx : List Frame) (lo hi : Option String), CtxBnd ctx lo hi →
    ∀ t, OrdBnd lo hi t → OrdBnd none none (plug ctx t) := by
  intro ctx
  induction ctx with
  | nil =>
    intro lo hi hctx t ht
    cases hctx
    exact ht
  | cons f rest ih =>
    intro lo hi hctx t ht
    cases hctx with
    | left c d sib hrest h1 h2 hsib =>
      exact ih _ _ hrest _ (by simp only [plug1, OrdBnd]; exact ⟨h1, h2, ht, hsib⟩)
    | right c d sib hrest h1 h2 hsib =>
      exact ih _ _ hrest _ (by simp only [plug1, OrdBnd]; exact ⟨h1, h2, hsib, ht⟩)

/-- The descent of `insert` extends an order-consistent context to the
attachment point, and the new record's key fits the hole's interval. -/
theorem descend_ctxBnd : ∀ (t : RBTree) (ctx : List Frame) (lo hi : Option String)
    (obj : DataObject), OrdBnd lo hi t → CtxBnd ctx lo hi → lbOk lo obj.key →
    ubOk hi obj.key →
    ∃ lo' hi', CtxBnd (descend t obj ctx) lo' hi' ∧ lbOk lo' obj.key ∧ ubOk hi' obj.key := by
  intro t
  induction t with
  | nil =>
    intro ctx lo hi obj _ hctx hl hh
    exact ⟨lo, hi, hctx, hl, hh⟩
  | node c l d r ihl ihr =>
    intro ctx lo hi obj h hctx hl hh
    simp only [OrdBnd] at h
    obtain ⟨h1, h2, hL, hR⟩ := h
    rw [descend]
    by_cases hlt : obj.key < d.key
    · rw [if_pos hlt]
      exact ihl _ lo (some d.key) obj hL (CtxBnd.left c d r hctx h1 h2 hR) hl (le_of_lt hlt)
    · rw [if_neg hlt]
      exact ihr _ (some d.key) hi obj hR (CtxBnd.right c d l hctx h1 h2 hL)
        (le_of_not_lt hlt) hh

/-- The fixup pass keeps the tree ordered: from an order-consistent
context and a hole subtree within the hole's interval, the reassembled
tree is ordered. -/
theorem insertFixup_ordBnd : ∀ (ctx : List Frame) (z : ZNode) (lo hi : Option String),
    OrdBnd lo hi z.toTree → CtxBnd ctx lo hi →
    OrdBnd none none (insertFixup z ctx)
  | [], z, lo, hi, hz, hctx => by
    cases hctx
    exact paintBlack_ordBnd none none z.toTree hz
  | [pf], z, lo, hi, hz, hctx => by
    exact paintBlack_ordBnd none none _ (ctxBnd_plug [pf] lo hi hctx z.toTree hz)
  | ⟨pfdir, pfc, pfd, pfsib⟩ :: ⟨gfdir, gfc, gfd, gfsib⟩ :: rest2, z, lo, hi, hz, hctx => by
    match pfc with
    | .BLACK =>
      exact paintBlack_ordBnd none none _ (ctxBnd_plug _ lo hi hctx z.toTree hz)
    | .RED =>
      match gfdir with
      | .left =>
        -- peel the two frames off the context
        cases hctx with
        | left _ _ _ hrest h1 h2 hsib =>
          -- pf is a left frame: hi = some pfd.key
          cases hrest with
          | left _ _ _ hrest2 hg1 hg2 hgsib =>
            -- gf: hole interval (lo, some gfd.key) at pf level
            match u : gfsib, hgsib with
            | .node .RED ul ud ur, hgsib =>
              show OrdBnd none none (insertFixup
                ⟨.RED, plug1 ⟨.left, .BLACK, pfd, pfsib⟩ z.toTree, gfd,
                  .node .BLACK ul ud ur⟩ rest2)
              refine insertFixup_ordBnd rest2 _ _ _ ?_ hrest2
              show OrdBnd _ _ (.node .RED (.node .BLACK z.toTree pfd pfsib) gfd
                (.node .BLACK ul ud ur))
              simp only [OrdBnd] at hgsib ⊢
              exact ⟨hg1, hg2, ⟨h1, h2, hz, hsib⟩, hgsib⟩
            | .nil, hgsib =>
              refine paintBlack_ordBnd none none _ (ctxBnd_plug rest2 _ _ hrest2 _
                (rightRotate_ordBnd _ _ _ ?_))
              show OrdBnd _ _ (.node .RED (paintBlack (.node .RED z.toTree pfd pfsib)) gfd .nil)
              simp only [paintBlack, OrdBnd]
              exact ⟨hg1, hg2, ⟨h1, h2, hz, hsib⟩, trivial⟩
            | .node .BLACK ul ud ur, hgsib =>
              refine paintBlack_ordBnd none none _ (ctxBnd_plug rest2 _ _ hrest2 _
                (rightRotate_ordBnd _ _ _ ?_))
              show OrdBnd _ _ (.node .RED (paintBlack (.node .RED z.toTree pfd pfsib)) gfd
                (.node .BLACK ul ud ur))
              simp only [paintBlack, OrdBnd] at hgsib ⊢
              exact ⟨hg1, hg2, ⟨h1, h2, hz, hsib⟩, hgsib⟩
        | right _ _ _ hrest h1 h2 hsib =>
          -- pf is a right frame: lo = some pfd.key
          cases hrest with
          | left _ _ _ hrest2 hg1 hg2 hgsib =>
            match u : gfsib, hgsib with
            | .node .RED ul ud ur, hgsib =>
              show OrdBnd none none (insertFixup
                ⟨.RED, plug1 ⟨.right, .BLACK, pfd, pfsib⟩ z.toTree, gfd,
                  .node .BLACK ul ud ur⟩ rest2)
              refine insertFixup_ordBnd rest2 _ _ _ ?_ hrest2
              show OrdBnd _ _ (.node .RED (.node .BLACK pfsib pfd z.toTree) gfd
                (.node .BLACK ul ud ur))
              simp only [OrdBnd] at hgsib ⊢
              exact ⟨hg1, hg2, ⟨h1, h2, hsib, hz⟩, hgsib⟩
            | .nil, hgsib =>
              refine paintBlack_ordBnd none none _ (ctxBnd_plug rest2 _ _ hrest2 _
                (rightRotate_ordBnd _ _ _ ?_))
              show OrdBnd _ _ (.node .RED
                (paintBlack (leftRotate (.node .RED pfsib pfd z.toTree))) gfd .nil)
              show OrdBnd _ _ (.node .RED
                (paintBlack (.node z.c (.node .RED pfsib pfd z.l) z.d z.r)) gfd .nil)
              simp only [OrdBnd] at hz
              obtain ⟨hz1, hz2, hzl, hzr⟩ := hz
              simp only [paintBlack, OrdBnd]
              exact ⟨hg1, hg2, ⟨lbOk_le _ pfd.key z.d.key h1 hz1, hz2,
                ⟨h1, hz1, hsib, hzl⟩, hzr⟩, trivial⟩
            | .node .BLACK ul ud ur, hgsib =>
              refine paintBlack_ordBnd none none _ (ctxBnd_plug rest2 _ _ hrest2 _
                (rightRotate_ordBnd _ _ _ ?_))
              show OrdBnd _ _ (.node .RED
                (paintBlack (.node z.c (.node .RED pfsib pfd z.l) z.d z.r)) gfd
                (.node .BLACK ul ud ur))
              simp only [OrdBnd] at hz
              obtain ⟨hz1, hz2, hzl, hzr⟩ := hz
              simp only [paintBlack, OrdBnd] at hgsib ⊢
              exact ⟨hg1, hg2, ⟨lbOk_le _ pfd.key z.d.key h1 hz1, hz2,
                ⟨h1, hz1, hsib, hzl⟩, hzr⟩, hgsib⟩
      | .right =>
        cases hctx with
        | left _ _ _ hrest h1 h2 hsib =>
          cases hrest with
          | right _ _ _ hrest2 hg1 hg2 hgsib =>
            match u : gfsib, hgsib with
            | .node .RED ul ud ur, hgsib =>
              show OrdBnd none none (insertFixup
                ⟨.RED, .node .BLACK ul ud ur, gfd,
                  plug1 ⟨.left, .BLACK, pfd, pfsib⟩ z.toTree⟩ rest2)
              refine insertFixup_ordBnd rest2 _ _ _ ?_ hrest2
              show OrdBnd _ _ (.node .RED (.node .BLACK ul ud ur) gfd
                (.node .BLACK z.toTree pfd pfsib))
              simp only [OrdBnd] at hgsib ⊢
              exact ⟨hg1, hg2, hgsib, ⟨h1, h2, hz, hsib⟩⟩
            | .nil, hgsib =>
              refine paintBlack_ordBnd none none _ (ctxBnd_plug rest2 _ _ hrest2 _
                (leftRotate_ordBnd _ _ _ ?_))
              show OrdBnd _ _ (.node .RED .nil gfd
                (paintBlack (.node z.c z.l z.d (.node .RED z.r pfd pfsib))))
              simp only [OrdBnd] at hz
              obtain ⟨hz1, hz2, hzl, hzr⟩ := hz
              simp only [paintBlack, OrdBnd]
              exact ⟨hg1, hg2, trivial, ⟨hz1, ubOk_le _ pfd.key z.d.key h2 hz2, hzl,
                ⟨hz2, h2, hzr, hsib⟩⟩⟩
            | .node .BLACK ul ud ur, hgsib =>
              refine paintBlack_ordBnd none none _ (ctxBnd_plug rest2 _ _ hrest2 _
                (leftRotate_ordBnd _ _ _ ?_))
              show OrdBnd _ _ (.node .RED (.node .BLACK ul ud ur) gfd
                (paintBlack (.node z.c z.l z.d (.node .RED z.r pfd pfsib))))
              simp only [OrdBnd] at hz
              obtain ⟨hz1, hz2, hzl, hzr⟩ := hz
              simp only [paintBlack, OrdBnd] at hgsib ⊢
              exact ⟨hg1, hg2, hgsib, ⟨hz1, ubOk_le _ pfd.key z.d.key h2 hz2, hzl,
                ⟨hz2, h2, hzr, hsib⟩⟩⟩
        | right _ _ _ hrest h1 h2 hsib =>
          cases hrest with
          | right _ _ _ hrest2 hg1 hg2 hgsib =>
            match u : gfsib, hgsib with
            | .node .RED ul ud ur, hgsib =>
              show OrdBnd none none (insertFixup
                ⟨.RED, .node .BLACK ul ud ur, gfd,
                  plug1 ⟨.right, .BLACK, pfd, pfsib⟩ z.toTree⟩ rest2)
              refine insertFixup_ordBnd rest2 _ _ _ ?_ hrest2
              show OrdBnd _ _ (.node .RED (.node .BLACK ul ud ur) gfd
                (.node .BLACK pfsib pfd z.toTree))
              simp only [OrdBnd] at hgsib ⊢
              exact ⟨hg1, hg2, hgsib, ⟨h1, h2, hsib, hz⟩⟩
            | .nil, hgsib =>
              refine paintBlack_ordBnd none none _ (ctxBnd_plug rest2 _ _ hrest2 _
                (leftRotate_ordBnd _ _ _ ?_))
              show OrdBnd _ _ (.node .RED .nil gfd
                (paintBlack (.node .RED pfsib pfd z.toTree)))
              simp only [paintBlack, OrdBnd]
              exact ⟨hg1, hg2, trivial, ⟨h1, h2, hsib, hz⟩⟩
            | .node .BLACK ul ud ur, hgsib =>
              refine paintBlack_ordBnd none none _ (ctxBnd_plug rest2 _ _ hrest2 _
                (leftRotate_ordBnd _ _ _ ?_))
              show OrdBnd _ _ (.node .RED (.node .BLACK ul ud ur) gfd
                (paintBlack (.node .RED pfsib pfd z.toTree)))
              simp only [paintBlack, OrdBnd] at hgsib ⊢
              exact ⟨hg1, hg2, hgsib, ⟨h1, h2, hsib, hz⟩⟩

/-- `insert` keeps the tree ordered. -/
theorem insert_ordBnd (t : RBTree) (obj : DataObject) (h : OrdBnd none none t) :
    OrdBnd none none (t.insert obj) := by
  obtain ⟨lo', hi', hctx, hl, hh⟩ :=
    descend_ctxBnd t [] none none obj h CtxBnd.nil trivial trivial
  refine insertFixup_ordBnd (descend t obj []) ⟨.RED, .nil, obj, .nil⟩ lo' hi' ?_ hctx
  show OrdBnd lo' hi' (.node .RED .nil obj .nil)
  simp only [OrdBnd]
  exact ⟨hl, hh, trivial, trivial⟩

/-- Every tree produced by a sequence of inserts from the empty tree is
ordered. -/
theorem foldl_insert_ordBnd (data : List DataObject) :
    ∀ t, OrdBnd none none t → OrdBnd none none (data.foldl RBTree.insert t) := by
  induction data with
  | nil => intro t h; exact h
  | cons o rest ih => intro t h; exact ih _ (insert_ordBnd t o h)

theorem build_ordBnd (old : RBTree) (data : List DataObject) :
    OrdBnd none none (RBTree.build old data) :=
  foldl_insert_ordBnd data .nil trivial

/-- All records of a bounded tree have keys within the bounds. -/
theorem ordBnd_keys : ∀ (t : RBTree) (lo hi : Option String), OrdBnd lo hi t →
    ∀ x ∈ inorder t, lbOk lo x.key ∧ ubOk hi x.key := by
  intro t
  induction t with
  | nil =>
    intro lo hi _ x hx
    simp [inorder] at hx
  | node c l d r ihl ihr =>
    intro lo hi h x hx
    simp only [OrdBnd] at h
    obtain ⟨h1, h2, hL, hR⟩ := h
    simp only [inorder, List.mem_append, List.mem_cons] at hx
    rcases hx with hx | rfl | hx
    · have hb := ihl lo (some d.key) hL x hx
      exact ⟨hb.1, ubOk_le hi d.key x.key h2 hb.2⟩
    · exact ⟨h1, h2⟩
    · have hb := ihr (some d.key) hi hR x hx
      exact ⟨lbOk_le lo d.key x.key h1 hb.1, hb.2⟩

/-- A bounded tree satisfies the weak two-sided ordering invariant. -/
theorem ordBnd_weakOrdered : ∀ (t : RBTree) (lo hi : Option String), OrdBnd lo hi t →
    WeakOrdered t := by
  intro t
  induction t with
  | nil => intro _ _ _; trivial
  | node c l d r ihl ihr =>
    intro lo hi h
    simp only [OrdBnd] at h
    obtain ⟨h1, h2, hL, hR⟩ := h
    simp only [WeakOrdered]
    exact ⟨fun x hx => (ordBnd_keys l lo (some d.key) hL x hx).2,
      fun x hx => (ordBnd_keys r (some d.key) hi hR x hx).1,
      ihl _ _ hL, ihr _ _ hR⟩

/-- C3 (amended): after every insertion sequence (`insert` via `build`),
every node's left subtree holds keys at most its key and its right subtree
holds keys at least its key.  The strict left-side form fails (see the
counterexample): equal keys descend right at insertion time, but the fixup
rotations can carry an equal key into a left subtree. -/
theorem c3_amended_weak_ordering (old : RBTree) (data : List DataObject) :
    WeakOrdered (RBTree.build old data) :=
  ordBnd_weakOrdered _ none none (build_ordBnd old data)

/-- The in-order traversal of a bounded tree has pairwise non-decreasing
keys. -/
theorem ordBnd_pairwise : ∀ (t : RBTree) (lo hi : Option String), OrdBnd lo hi t →
    List.Pairwise (fun a b : DataObject => a.key ≤ b.key) (inorder t) := by
  intro t
  induction t with
  | nil => intro _ _ _; simp [inorder]
  | node c l d r ihl ihr =>
    intro lo hi h
    simp only [OrdBnd] at h
    obtain ⟨h1, h2, hL, hR⟩ := h
    simp only [inorder]
    rw [List.pairwise_append]
    refine ⟨ihl _ _ hL, ?_, ?_⟩
    · rw [List.pairwise_cons]
      exact ⟨fun y hy => (ordBnd_keys r _ _ hR y hy).1, ihr _ _ hR⟩
    · intro x hx y hy
      have hxd : x.key ≤ d.key := (ordBnd_keys l _ _ hL x hx).2
      rcases List.mem_cons.1 hy with rfl | hy'
      · exact hxd
      · exact le_trans hxd (ordBnd_keys r _ _ hR y hy').1

/-! ### Red-black color and black-height invariants -/

theorem paintBlack_rootColor (t : RBTree) : rootColor (paintBlack t) = .BLACK := by
  cases t <;> rfl

theorem paintBlack_noRedRed (t : RBTree) (h : NoRedRed t) : NoRedRed (paintBlack t) := by
  cases t with
  | nil => trivial
  | node c l d r =>
    simp only [NoRedRed] at h ⊢
    exact ⟨fun hc => Color.noConfusion hc, h.2.1, h.2.2⟩

theorem paintBlack_bhu (t : RBTree) (h : BlackHeightUniform t) :
    BlackHeightUniform (paintBlack t) := by
  cases t with
  | nil => trivial
  | node c l d r => exact h

/-- Plugging a red-black-valid subtree of the right black height into a
red-black-consistent context (with no RED-RED at the junction) gives a
tree satisfying properties 3 and 4. -/
theorem plug_RB : ∀ (ctx : List Frame) (n : Nat), CtxRB ctx n →
    ∀ t, NoRedRed t → BlackHeightUniform t → blackHeight t = n →
    (headColor ctx = .RED → rootColor t = .BLACK) →
    NoRedRed (plug ctx t) ∧ BlackHeightUniform (plug ctx t) := by
  intro ctx
  induction ctx with
  | nil => intro n _ t h1 h2 _ _; exact ⟨h1, h2⟩
  | cons f rest ih =>
    intro n hctx t h1 h2 h3 h4
    cases hctx with
    | cons _ hrest hs1 hs2 hs3 hredsib hredhead =>
      obtain ⟨fdir, fc, fd, fsib⟩ := f
      have hplugred : headColor rest = .RED → fc = .BLACK := by
        intro hh
        cases hfc : fc with
        | BLACK => rfl
        | RED => exact absurd (hredhead hfc) (by rw [hh]; decide)
      cases fdir with
      | left =>
        refine ih (n + colorBit fc) hrest (.node fc t fd fsib) ?_ ?_ ?_ ?_
        · simp only [NoRedRed]
          exact ⟨fun hfc => ⟨h4 hfc, hredsib hfc⟩, h1, hs1⟩
        · simp only [BlackHeightUniform]
          exact ⟨by rw [h3, hs3], h2, hs2⟩
        · simp only [blackHeight]
          rw [h3]
        · intro hh
          show fc = .BLACK
          exact hplugred hh
      | right =>
        refine ih (n + colorBit fc) hrest (.node fc fsib fd t) ?_ ?_ ?_ ?_
        · simp only [NoRedRed]
          exact ⟨fun hfc => ⟨hredsib hfc, h4 hfc⟩, hs1, h1⟩
        · simp only [BlackHeightUniform]
          exact ⟨by rw [h3, hs3], hs2, h2⟩
        · simp only [blackHeight]
          rw [hs3]
        · intro hh
          show fc = .BLACK
          exact hplugred hh

/-- The descent of `insert` through a valid red-black tree produces a
red-black-consistent context around a hole of black height 0. -/
theorem descend_ctxRB : ∀ (t : RBTree) (ctx : List Frame) (obj : DataObject),
    NoRedRed t → BlackHeightUniform t → CtxRB ctx (blackHeight t) →
    (headColor ctx = .RED → rootColor t = .BLACK) →
    CtxRB (descend t obj ctx) 0 := by
  intro t
  induction t with
  | nil => intro ctx obj _ _ hctx _; exact hctx
  | node c l d r ihl ihr =>
    intro ctx obj h1 h2 hctx h4
    simp only [NoRedRed] at h1
    obtain ⟨hred, hL, hR⟩ := h1
    simp only [BlackHeightUniform] at h2
    obtain ⟨hbal, hbL, hbR⟩ := h2
    have hcb : c = .RED → headColor ctx = .BLACK := by
      intro hc
      cases hcol : headColor ctx with
      | BLACK => rfl
      | RED =>
        have := h4 hcol
        simp only [rootColor] at this
        rw [hc] at this
        exact absurd this (by decide)
    rw [descend]
    by_cases hlt : obj.key < d.key
    · rw [if_pos hlt]
      refine ihl _ obj hL hbL ?_ ?_
      · exact CtxRB.cons ⟨.left, c, d, r⟩ hctx hR hbR hbal.symm
          (fun hc => (hred hc).2) hcb
      · intro hh
        exact (hred hh).1
    · rw [if_neg hlt]
      refine ihr _ obj hR hbR ?_ ?_
      · refine CtxRB.cons ⟨.right, c, d, l⟩ ?_ hL hbL hbal
          (fun hc => (hred hc).1) hcb
        show CtxRB ctx (blackHeight r + colorBit c)
        rw [← hbal]
        exact hctx
      · intro hh
        exact (hred hh).2

/-- The fixup pass restores red-black properties 2-4: starting from a RED
node `z` that is itself a valid red-black subtree of black height `n`
inside a red-black-consistent context (the only possible violation being
`z` RED under a RED parent frame), the reassembled tree has no RED-RED
pair, uniform black heights, and a BLACK root. -/
theorem insertFixup_RB : ∀ (ctx : List Frame) (z : ZNode) (n : Nat),
    z.c = .RED → NoRedRed z.toTree → BlackHeightUniform z.toTree →
    blackHeight z.toTree = n → CtxRB ctx n →
    NoRedRed (insertFixup z ctx) ∧ BlackHeightUniform (insertFixup z ctx) ∧
      rootColor (insertFixup z ctx) = .BLACK
  | [], z, n, _, hz1, hz2, _, _ => by
    exact ⟨paintBlack_noRedRed _ hz1, paintBlack_bhu _ hz2, paintBlack_rootColor _⟩
  | [pf], z, n, hzc, hz1, hz2, hz3, hctx => by
    obtain ⟨fdir, fc, fd, fsib⟩ := pf
    cases hctx with
    | cons _ hrest hs1 hs2 hs3 hredsib hredhead =>
      cases fdir with
      | left =>
        show NoRedRed (.node .BLACK z.toTree fd fsib) ∧
          BlackHeightUniform (.node .BLACK z.toTree fd fsib) ∧
          rootColor (.node .BLACK z.toTree fd fsib) = .BLACK
        exact ⟨⟨fun hc => Color.noConfusion hc, hz1, hs1⟩,
          ⟨by rw [hz3, hs3], hz2, hs2⟩, rfl⟩
      | right =>
        show NoRedRed (.node .BLACK fsib fd z.toTree) ∧
          BlackHeightUniform (.node .BLACK fsib fd z.toTree) ∧
          rootColor (.node .BLACK fsib fd z.toTree) = .BLACK
        exact ⟨⟨fun hc => Color.noConfusion hc, hs1, hz1⟩,
          ⟨by rw [hz3, hs3], hs2, hz2⟩, rfl⟩
  | ⟨pfdir, pfc, pfd, pfsib⟩ :: ⟨gfdir, gfc, gfd, gfsib⟩ :: rest2, z, n, hzc, hz1, hz2,
      hz3, hctx => by
    have hz1' : (z.c = .RED → rootColor z.l = .BLACK ∧ rootColor z.r = .BLACK) ∧
        NoRedRed z.l ∧ NoRedRed z.r := hz1
    have hz2' : blackHeight z.l = blackHeight z.r ∧
        BlackHeightUniform z.l ∧ BlackHeightUniform z.r := hz2
    have hzt : blackHeight z.toTree = blackHeight z.l + colorBit z.c := rfl
    match pfc with
    | .BLACK =>
      have hplug := plug_RB _ n hctx z.toTree hz1 hz2 hz3
        (fun hh => Color.noConfusion hh)
      exact ⟨paintBlack_noRedRed _ hplug.1, paintBlack_bhu _ hplug.2, paintBlack_rootColor _⟩
    | .RED =>
      have hbzl : blackHeight z.l = n := by
        rw [hzt, hzc] at hz3
        simpa using hz3
      have hbzr : blackHeight z.r = n := by
        rw [← hz2'.1]
        exact hbzl
      cases hctx with
      | cons _ hrest hs1 hs2 hs3 hredsib hredhead =>
        have hpfb : rootColor pfsib = .BLACK := hredsib rfl
        have hpfbh : blackHeight pfsib = n := hs3
        have hgfb : gfc = .BLACK := hredhead rfl
        subst hgfb
        cases hrest with
        | cons _ hrest2 hgs1 hgs2 hgs3 hgredsib hgredhead =>
          have hrest2' : CtxRB rest2 (n + 1) := hrest2
          have hgs3' : blackHeight gfsib = n := hgs3
          match gfdir with
          | .left =>
            cases gfsib with
            | node uc ul ud ur =>
              cases uc with
              | RED =>
                -- case 1: red uncle, recolor, continue from the grandparent
                have hgs1' : (Color.RED = .RED → rootColor ul = .BLACK ∧
                    rootColor ur = .BLACK) ∧ NoRedRed ul ∧ NoRedRed ur := hgs1
                have hgs2' : blackHeight ul = blackHeight ur ∧
                    BlackHeightUniform ul ∧ BlackHeightUniform ur := hgs2
                have hbul : blackHeight ul = n := by
                  have : blackHeight ul + colorBit .RED = n := hgs3'
                  simpa using this
                cases pfdir with
                | left =>
                  show NoRedRed (insertFixup ⟨.RED, .node .BLACK z.toTree pfd pfsib, gfd,
                      .node .BLACK ul ud ur⟩ rest2) ∧ _
                  refine insertFixup_RB rest2 _ (n + 1) rfl ?_ ?_ ?_ hrest2'
                  · exact ⟨fun _ => ⟨rfl, rfl⟩,
                      ⟨fun hc => Color.noConfusion hc, hz1, hs1⟩,
                      ⟨fun hc => Color.noConfusion hc, hgs1'.2.1, hgs1'.2.2⟩⟩
                  · refine ⟨?_, ⟨by rw [hz3, hs3], hz2, hs2⟩,
                      ⟨hgs2'.1, hgs2'.2.1, hgs2'.2.2⟩⟩
                    show blackHeight z.toTree + 1 = blackHeight ul + 1
                    rw [hz3, hbul]
                  · show blackHeight z.toTree + 1 + colorBit .RED = n + 1
                    rw [hz3]
                    rfl
                | right =>
                  show NoRedRed (insertFixup ⟨.RED, .node .BLACK pfsib pfd z.toTree, gfd,
                      .node .BLACK ul ud ur⟩ rest2) ∧ _
                  refine insertFixup_RB rest2 _ (n + 1) rfl ?_ ?_ ?_ hrest2'
                  · exact ⟨fun _ => ⟨rfl, rfl⟩,
                      ⟨fun hc => Color.noConfusion hc, hs1, hz1⟩,
                      ⟨fun hc => Color.noConfusion hc, hgs1'.2.1, hgs1'.2.2⟩⟩
                  · refine ⟨?_, ⟨by rw [hz3, hs3], hs2, hz2⟩,
                      ⟨hgs2'.1, hgs2'.2.1, hgs2'.2.2⟩⟩
                    show blackHeight pfsib + 1 = blackHeight ul + 1
                    rw [hs3, hbul]
                  · show blackHeight pfsib + 1 + colorBit .RED = n + 1
                    rw [hs3]
                    rfl
              | BLACK =>
                -- black uncle
                have hgs1' : (Color.BLACK = .RED → rootColor ul = .BLACK ∧
                    rootColor ur = .BLACK) ∧ NoRedRed ul ∧ NoRedRed ur := hgs1
                have hgs2' : blackHeight ul = blackHeight ur ∧
                    BlackHeightUniform ul ∧ BlackHeightUniform ur := hgs2
                have hbul1 : blackHeight ul + 1 = n := by
                  have h : blackHeight ul + colorBit .BLACK = n := hgs3'
                  simpa [colorBit] using h
                cases pfdir with
                | left =>
                  -- case 3 (line)
                  have hG := plug_RB rest2 (n + 1) hrest2'
                    (.node .BLACK z.toTree pfd
                      (.node .RED pfsib gfd (.node .BLACK ul ud ur)))
                    ⟨fun hc => Color.noConfusion hc, hz1,
                      ⟨fun _ => ⟨hpfb, rfl⟩, hs1,
                        ⟨fun hc => Color.noConfusion hc, hgs1'.2.1, hgs1'.2.2⟩⟩⟩
                    ⟨by show blackHeight z.toTree = blackHeight pfsib + 0; omega,
                      hz2,
                      ⟨by show blackHeight pfsib = blackHeight ul + 1; omega,
                        hs2, ⟨hgs2'.1, hgs2'.2.1, hgs2'.2.2⟩⟩⟩
                    (by show blackHeight z.toTree + 1 = n + 1; omega)
                    (fun _ => rfl)
                  exact ⟨paintBlack_noRedRed _ hG.1, paintBlack_bhu _ hG.2,
                    paintBlack_rootColor _⟩
                | right =>
                  -- case 2 then 3 (triangle)
                  have hG := plug_RB rest2 (n + 1) hrest2'
                    (.node .BLACK (.node .RED pfsib pfd z.l) z.d
                      (.node .RED z.r gfd (.node .BLACK ul ud ur)))
                    ⟨fun hc => Color.noConfusion hc, ⟨fun _ => ⟨hpfb, (hz1'.1 hzc).1⟩, hs1,
                        hz1'.2.1⟩,
                      ⟨fun _ => ⟨(hz1'.1 hzc).2, rfl⟩, hz1'.2.2,
                        ⟨fun hc => Color.noConfusion hc, hgs1'.2.1, hgs1'.2.2⟩⟩⟩
                    ⟨by show blackHeight pfsib + 0 = blackHeight z.r + 0;
                        rw [hs3, hbzr],
                      ⟨by show blackHeight pfsib = blackHeight z.l; omega,
                        hs2, hz2'.2.1⟩,
                      ⟨by show blackHeight z.r = blackHeight ul + 1;
                          rw [hbzr, ← hgs3']; rfl,
                        hz2'.2.2, ⟨hgs2'.1, hgs2'.2.1, hgs2'.2.2⟩⟩⟩
                    (by show blackHeight pfsib + 0 + 1 = n + 1; omega)
                    (fun _ => rfl)
                  exact ⟨paintBlack_noRedRed _ hG.1, paintBlack_bhu _ hG.2,
                    paintBlack_rootColor _⟩
            | nil =>
              have hn0 : n = 0 := by
                have h : (0 : Nat) = n := hgs3'
                omega
              cases pfdir with
              | left =>
                have hG := plug_RB rest2 (n + 1) hrest2'
                  (.node .BLACK z.toTree pfd (.node .RED pfsib gfd .nil))
                  ⟨fun hc => Color.noConfusion hc, hz1,
                    ⟨fun _ => ⟨hpfb, rfl⟩, hs1, trivial⟩⟩
                  ⟨by show blackHeight z.toTree = blackHeight pfsib + 0; omega,
                    hz2,
                    ⟨by show blackHeight pfsib = 0; omega,
                      hs2, trivial⟩⟩
                  (by show blackHeight z.toTree + 1 = n + 1; omega)
                  (fun _ => rfl)
                exact ⟨paintBlack_noRedRed _ hG.1, paintBlack_bhu _ hG.2,
                  paintBlack_rootColor _⟩
              | right =>
                have hG := plug_RB rest2 (n + 1) hrest2'
                  (.node .BLACK (.node .RED pfsib pfd z.l) z.d
                    (.node .RED z.r gfd .nil))
                  ⟨fun hc => Color.noConfusion hc,
                    ⟨fun _ => ⟨hpfb, (hz1'.1 hzc).1⟩, hs1, hz1'.2.1⟩,
                    ⟨fun _ => ⟨(hz1'.1 hzc).2, rfl⟩, hz1'.2.2, trivial⟩⟩
                  ⟨by show blackHeight pfsib + 0 = blackHeight z.r + 0; omega,
                    ⟨by show blackHeight pfsib = blackHeight z.l; omega,
                      hs2, hz2'.2.1⟩,
                    ⟨by show blackHeight z.r = 0; omega,
                      hz2'.2.2, trivial⟩⟩
                  (by show blackHeight pfsib + 0 + 1 = n + 1; omega)
                  (fun _ => rfl)
                exact ⟨paintBlack_noRedRed _ hG.1, paintBlack_bhu _ hG.2,
                  paintBlack_rootColor _⟩
          | .right =>
            cases gfsib with
            | node uc ul ud ur =>
              cases uc with
              | RED =>
                have hgs1' : (Color.RED = .RED → rootColor ul = .BLACK ∧
                    rootColor ur = .BLACK) ∧ NoRedRed ul ∧ NoRedRed ur := hgs1
                have hgs2' : blackHeight ul = blackHeight ur ∧
                    BlackHeightUniform ul ∧ BlackHeightUniform ur := hgs2
                have hbul : blackHeight ul = n := by
                  have : blackHeight ul + colorBit .RED = n := hgs3'
                  simpa using this
                cases pfdir with
                | left =>
                  show NoRedRed (insertFixup ⟨.RED, .node .BLACK ul ud ur, gfd,
                      .node .BLACK z.toTree pfd pfsib⟩ rest2) ∧ _
                  refine insertFixup_RB rest2 _ (n + 1) rfl ?_ ?_ ?_ hrest2'
                  · exact ⟨fun _ => ⟨rfl, rfl⟩,
                      ⟨fun hc => Color.noConfusion hc, hgs1'.2.1, hgs1'.2.2⟩,
                      ⟨fun hc => Color.noConfusion hc, hz1, hs1⟩⟩
                  · refine ⟨?_, ⟨hgs2'.1, hgs2'.2.1, hgs2'.2.2⟩,
                      ⟨by rw [hz3, hs3], hz2, hs2⟩⟩
                    show blackHeight ul + 1 = blackHeight z.toTree + 1
                    rw [hz3, hbul]
                  · show blackHeight ul + 1 + colorBit .RED = n + 1
                    rw [hbul]
                    rfl
                | right =>
                  show NoRedRed (insertFixup ⟨.RED, .node .BLACK ul ud ur, gfd,
                      .node .BLACK pfsib pfd z.toTree⟩ rest2) ∧ _
                  refine insertFixup_RB rest2 _ (n + 1) rfl ?_ ?_ ?_ hrest2'
                  · exact ⟨fun _ => ⟨rfl, rfl⟩,
                      ⟨fun hc => Color.noConfusion hc, hgs1'.2.1, hgs1'.2.2⟩,
                      ⟨fun hc => Color.noConfusion hc, hs1, hz1⟩⟩
                  · refine ⟨?_, ⟨hgs2'.1, hgs2'.2.1, hgs2'.2.2⟩,
                      ⟨by rw [hz3, hs3], hs2, hz2⟩⟩
                    show blackHeight ul + 1 = blackHeight pfsib + 1
                    rw [hs3, hbul]
                  · show blackHeight ul + 1 + colorBit .RED = n + 1
                    rw [hbul]
                    rfl
              | BLACK =>
                have hgs1' : (Color.BLACK = .RED → rootColor ul = .BLACK ∧
                    rootColor ur = .BLACK) ∧ NoRedRed ul ∧ NoRedRed ur := hgs1
                have hgs2' : blackHeight ul = blackHeight ur ∧
                    BlackHeightUniform ul ∧ BlackHeightUniform ur := hgs2
                have hbul1 : blackHeight ul + 1 = n := by
                  have h : blackHeight ul + colorBit .BLACK = n := hgs3'
                  simpa [colorBit] using h
                cases pfdir with
                | right =>
                  -- case 3 (line, mirror)
                  have hG := plug_RB rest2 (n + 1) hrest2'
                    (.node .BLACK (.node .RED (.node .BLACK ul ud ur) gfd pfsib) pfd
                      z.toTree)
                    ⟨fun hc => Color.noConfusion hc,
                      ⟨fun _ => ⟨rfl, hpfb⟩,
                        ⟨fun hc => Color.noConfusion hc, hgs1'.2.1, hgs1'.2.2⟩, hs1⟩,
                      hz1⟩
                    ⟨by show blackHeight ul + 1 + 0 = blackHeight z.toTree;
                        rw [hz3, ← hgs3']; rfl,
                      ⟨by show blackHeight ul + 1 = blackHeight pfsib;
                          rw [hs3, ← hgs3']; rfl,
                        ⟨hgs2'.1, hgs2'.2.1, hgs2'.2.2⟩, hs2⟩,
                      hz2⟩
                    (by show blackHeight ul + 1 + 0 + 1 = n + 1; omega)
                    (fun _ => rfl)
                  exact ⟨paintBlack_noRedRed _ hG.1, paintBlack_bhu _ hG.2,
                    paintBlack_rootColor _⟩
                | left =>
                  -- case 2 then 3 (triangle, mirror)
                  have hG := plug_RB rest2 (n + 1) hrest2'
                    (.node .BLACK (.node .RED (.node .BLACK ul ud ur) gfd z.l) z.d
                      (.node .RED z.r pfd pfsib))
                    ⟨fun hc => Color.noConfusion hc,
                      ⟨fun _ => ⟨rfl, (hz1'.1 hzc).1⟩,
                        ⟨fun hc => Color.noConfusion hc, hgs1'.2.1, hgs1'.2.2⟩,
                        hz1'.2.1⟩,
                      ⟨fun _ => ⟨(hz1'.1 hzc).2, hpfb⟩, hz1'.2.2, hs1⟩⟩
                    ⟨by show blackHeight ul + 1 + 0 = blackHeight z.r + 0;
                        rw [hbzr, ← hgs3']; rfl,
                      ⟨by show blackHeight ul + 1 = blackHeight z.l;
                          rw [hbzl, ← hgs3']; rfl,
                        ⟨hgs2'.1, hgs2'.2.1, hgs2'.2.2⟩, hz2'.2.1⟩,
                      ⟨by show blackHeight z.r = blackHeight pfsib; omega,
                        hz2'.2.2, hs2⟩⟩
                    (by show blackHeight ul + 1 + 0 + 1 = n + 1; omega)
                    (fun _ => rfl)
                  exact ⟨paintBlack_noRedRed _ hG.1, paintBlack_bhu _ hG.2,
                    paintBlack_rootColor _⟩
            | nil =>
              have hn0 : n = 0 := by
                have h : (0 : Nat) = n := hgs3'
                omega
              cases pfdir with
              | right =>
                have hG := plug_RB rest2 (n + 1) hrest2'
                  (.node .BLACK (.node .RED .nil gfd pfsib) pfd z.toTree)
                  ⟨fun hc => Color.noConfusion hc,
                    ⟨fun _ => ⟨rfl, hpfb⟩, trivial, hs1⟩, hz1⟩
                  ⟨by show 0 + 0 = blackHeight z.toTree; omega,
                    ⟨by show (0 : Nat) = blackHeight pfsib; omega,
                      trivial, hs2⟩,
                    hz2⟩
                  (by show 0 + 0 + 1 = n + 1; omega)
                  (fun _ => rfl)
                exact ⟨paintBlack_noRedRed _ hG.1, paintBlack_bhu _ hG.2,
                  paintBlack_rootColor _⟩
              | left =>
                have hG := plug_RB rest2 (n + 1) hrest2'
                  (.node .BLACK (.node .RED .nil gfd z.l) z.d
                    (.node .RED z.r pfd pfsib))
                  ⟨fun hc => Color.noConfusion hc,
                    ⟨fun _ => ⟨rfl, (hz1'.1 hzc).1⟩, trivial, hz1'.2.1⟩,
                    ⟨fun _ => ⟨(hz1'.1 hzc).2, hpfb⟩, hz1'.2.2, hs1⟩⟩
                  ⟨by show 0 + 0 = blackHeight z.r + 0; omega,
                    ⟨by show (0 : Nat) = blackHeight z.l; omega,
                      trivial, hz2'.2.1⟩,
                    ⟨by show blackHeight z.r = blackHeight pfsib; omega,
                      hz2'.2.2, hs2⟩⟩
                  (by show 0 + 0 + 1 = n + 1; omega)
                  (fun _ => rfl)
                exact ⟨paintBlack_noRedRed _ hG.1, paintBlack_bhu _ hG.2,
                  paintBlack_rootColor _⟩

/-- A single `insert` into a tree satisfying red-black properties 3 and 4
rebuilds a tree satisfying them, with a BLACK root. -/
theorem insert_RB (t : RBTree) (obj : DataObject)
    (h1 : NoRedRed t) (h2 : BlackHeightUniform t) :
    NoRedRed (t.insert obj) ∧ BlackHeightUniform (t.insert obj) ∧
      rootColor (t.insert obj) = .BLACK := by
  refine insertFixup_RB (descend t obj []) ⟨.RED, .nil, obj, .nil⟩ 0 rfl ?_ ?_ rfl ?_
  · exact ⟨fun _ => ⟨rfl, rfl⟩, trivial, trivial⟩
  · exact ⟨rfl, trivial, trivial⟩
  · exact descend_ctxRB t [] obj h1 h2 (CtxRB.nil (blackHeight t))
      (fun hh => Color.noConfusion hh)

theorem foldl_insert_RB (data : List DataObject) :
    ∀ t, NoRedRed t ∧ BlackHeightUniform t ∧ rootColor t = .BLACK →
      NoRedRed (data.foldl RBTree.insert t) ∧
        BlackHeightUniform (data.foldl RBTree.insert t) ∧
        rootColor (data.foldl RBTree.insert t) = .BLACK := by
  induction data with
  | nil => intro t h; exact h
  | cons o rest ih =>
    intro t h
    exact ih _ (insert_RB t o h.1 h.2.1)

theorem build_RB (old : RBTree) (data : List DataObject) :
    NoRedRed (RBTree.build old data) ∧ BlackHeightUniform (RBTree.build old data) ∧
      rootColor (RBTree.build old data) = .BLACK :=
  foldl_insert_RB data .nil ⟨trivial, trivial, rfl⟩

/-- Under uniform black heights, every root-to-empty path carries the same
number of BLACK nodes, namely `blackHeight`. -/
theorem pathBlackCounts_uniform : ∀ (t : RBTree), BlackHeightUniform t →
    ∀ m ∈ pathBlackCounts t, m = blackHeight t := by
  intro t
  induction t with
  | nil =>
    intro _ m hm
    simp only [pathBlackCounts, List.mem_singleton] at hm
    simp [blackHeight, hm]
  | node c l d r ihl ihr =>
    intro h m hm
    have h' : blackHeight l = blackHeight r ∧
        BlackHeightUniform l ∧ BlackHeightUniform r := h
    simp only [pathBlackCounts, List.mem_map, List.mem_append] at hm
    obtain ⟨m', hm', rfl⟩ := hm
    show m' + colorBit c = blackHeight l + colorBit c
    rcases hm' with hm' | hm'
    · rw [ihl h'.2.1 m' hm']
    · rw [ihr h'.2.2 m' hm', h'.1]

/-- C2: after every sequence of insertions (by `insert`, performed by
`build` in input order), the tree has a BLACK root (the empty tree has
`rootColor .nil = .BLACK` by the usual convention), no RED node with a RED
parent, the same number of BLACK nodes on every path from the root to an
empty position, and a non-decreasing in-order key sequence.  Every prefix
of an insertion sequence is itself an insertion sequence, so this covers
the state after each individual insert. -/
theorem c2_rb_invariants (old : RBTree) (data : List DataObject) :
    rootColor (RBTree.build old data) = .BLACK ∧
    NoRedRed (RBTree.build old data) ∧
    (∀ m ∈ pathBlackCounts (RBTree.build old data),
      m = blackHeight (RBTree.build old data)) ∧
    List.Chain' (fun a b : DataObject => a.key ≤ b.key) (inorder (RBTree.build old data)) := by
  obtain ⟨h1, h2, h3⟩ := build_RB old data
  exact ⟨h3, h1, pathBlackCounts_uniform _ h2,
    (ordBnd_pairwise _ none none (build_ordBnd old data)).chain'⟩

/-- Witness for `c2_rb_invariants` at a concrete one-record run: the path
count 1 (a member of the path list, by evaluation) equals the black
height. -/
theorem c2_rb_invariants_w :
    1 ∈ pathBlackCounts (RBTree.build .nil [⟨"a", 1, 1⟩]) ∧
      1 = blackHeight (RBTree.build .nil [⟨"a", 1, 1⟩]) :=
  ⟨by decide, (c2_rb_invariants .nil [⟨"a", 1, 1⟩]).2.2.1 1 (by decide)⟩

end Lab2
